import Mathlib

set_option maxRecDepth 8000

/-!
# Verification of the Mastermind solver (`src/main.py`)

A shallow embedding of the repository's single source file.  Pure Python
functions become Lean functions; Python exceptions become an explicit
`Except PyErr` result; Python `set` values become `Finset Code`, except where
iteration order or in-place mutation is observable (`get_next_guess` pops an
arbitrary element and then iterates), in which case the set's iteration order
is made explicit as a `List Code` and results are proved for every order.

Layout: definitions first (data model, scorer, minimax selector, driver round
steps), then the theorems that settle each claim.
-/

/-- The failure modes the Python source can actually produce:
`exception msg` models `raise Exception(msg)`, `indexError` models the
`IndexError` from `ctr.most_common(1)[0]` on an empty collection
(`get_min_eliminated`, line 141, when `solution_candidates` is empty), and
`keyError` models `set.remove` of an absent element (lines 184, 252, 283). -/
inductive PyErr : Type where
  | exception (msg : String) : PyErr
  | indexError : PyErr
  | keyError : PyErr
deriving DecidableEq, Repr

/-- `Code.CODE_PEG_COLORS = {1, 2, 3, 4, 5, 6}` (line 12). -/
def CODE_PEG_COLORS : Finset ℕ := {1, 2, 3, 4, 5, 6}

/-- A peg quadruple passes `Code.__init__`'s validation (line 18):
`all(elt in Code.CODE_PEG_COLORS for elt in peg_array)` (the length-4 check
is carried by the quadruple shape). -/
def ValidPegs (p : ℕ × ℕ × ℕ × ℕ) : Prop :=
  p.1 ∈ CODE_PEG_COLORS ∧ p.2.1 ∈ CODE_PEG_COLORS ∧ p.2.2.1 ∈ CODE_PEG_COLORS ∧
    p.2.2.2 ∈ CODE_PEG_COLORS

instance (p : ℕ × ℕ × ℕ × ℕ) : Decidable (ValidPegs p) := by
  unfold ValidPegs; infer_instance

/-- A `Code` (lines 7-48): an ordered quadruple of pegs, each one of six
colors.  The class invariant is enforced at construction, so the embedded
type carries it intrinsically. -/
def Code : Type := {p : ℕ × ℕ × ℕ × ℕ // ValidPegs p}

instance : DecidableEq Code := Subtype.instDecidableEq

/-- `self._peg1` -/
def Code.peg1 (c : Code) : ℕ := c.val.1
/-- `self._peg2` -/
def Code.peg2 (c : Code) : ℕ := c.val.2.1
/-- `self._peg3` -/
def Code.peg3 (c : Code) : ℕ := c.val.2.2.1
/-- `self._peg4` -/
def Code.peg4 (c : Code) : ℕ := c.val.2.2.2

/-- `Code.to_number` (lines 36-41): `peg1*1000 + peg2*100 + peg3*10 + peg4`,
used to break ties in the minimax algorithm. -/
def Code.to_number (c : Code) : ℕ :=
  c.peg1 * 1000 + c.peg2 * 100 + c.peg3 * 10 + c.peg4

/-- `Code.__eq__` (lines 26-31): two codes compare equal iff their
`to_number` values agree (the `type(other) == type(self)` guard always
holds between two codes). -/
def code_eq (a b : Code) : Prop := a.to_number = b.to_number

instance (a b : Code) : Decidable (code_eq a b) := by
  unfold code_eq; infer_instance

/-- `Code.__init__` (lines 14-24): validates the peg list and constructs the
code, raising otherwise. -/
def make_code (l : List ℕ) : Except PyErr Code :=
  match l with
  | [a, b, c, d] =>
    if h : ValidPegs (a, b, c, d) then .ok ⟨(a, b, c, d), h⟩
    else .error (.exception "Code must be initialized with a list of four code peg colors")
  | _ => .error (.exception "Code must be initialized with a list of four code peg colors")

/-- The quadruple universe the four nested loops of `get_full_code_set`
(lines 57-61) range over. -/
def pegTuples : Finset (ℕ × ℕ × ℕ × ℕ) :=
  CODE_PEG_COLORS ×ˢ CODE_PEG_COLORS ×ˢ CODE_PEG_COLORS ×ˢ CODE_PEG_COLORS

/-- `Code.get_full_code_set` (lines 50-63): the set of all 6⁴ codes, built by
exhausting the four nested loops over `CODE_PEG_COLORS`. -/
def get_full_code_set : Finset Code :=
  pegTuples.attach.image fun x =>
    ⟨x.val, by
      have h := x.property
      unfold pegTuples at h
      simp only [Finset.mem_product] at h
      exact ⟨h.1, h.2.1, h.2.2.1, h.2.2.2⟩⟩

/-- `PegScore` (lines 66-88): a (red, white) pair.  The class invariant
(line 76) guarantees both counts are in range, so the embedded structure
stores plain naturals. -/
structure PegScore : Type where
  num_red : ℕ
  num_white : ℕ
deriving DecidableEq, Repr

/-- `PegScore.__init__` (lines 75-79): validates
`red + white ≤ 4 ∧ 0 ≤ red + white ∧ red ≤ 4 ∧ 0 ≤ red ∧ white ≤ 4 ∧ 0 ≤ white`
over the (possibly negative) integer inputs and raises otherwise. -/
def make_peg_score (num_red num_white : ℤ) : Except PyErr PegScore :=
  if num_red + num_white > 4 ∨ num_red + num_white < 0 ∨ num_red > 4 ∨ num_red < 0 ∨
      num_white > 4 ∨ num_white < 0 then
    .error (.exception "Invalid peg score")
  else
    .ok ⟨num_red.toNat, num_white.toNat⟩

/-- `Counter([guess pegs])[c]` (lines 161-162): the number of pegs of `c`
with color `v`. -/
def occurrences (c : Code) (v : ℕ) : ℕ :=
  (if c.peg1 = v then 1 else 0) + (if c.peg2 = v then 1 else 0) +
    (if c.peg3 = v then 1 else 0) + (if c.peg4 = v then 1 else 0)

/-- `set([guess._peg1, ..., guess._peg4])` (line 158): the distinct colors of
a code. -/
def colorsOf (c : Code) : Finset ℕ := {c.peg1, c.peg2, c.peg3, c.peg4}

/-- `red_ct` (lines 153-154): number of positions where guess and solution
agree. -/
def red_ct (guess soln : Code) : ℕ :=
  (if guess.peg1 = soln.peg1 then 1 else 0) + (if guess.peg2 = soln.peg2 then 1 else 0) +
    (if guess.peg3 = soln.peg3 then 1 else 0) + (if guess.peg4 = soln.peg4 then 1 else 0)

/-- The white-count accumulation loop (lines 158-163): for each distinct color
of the guess, the smaller of its multiplicities in guess and solution. -/
def white_sum (guess soln : Code) : ℕ :=
  Finset.sum (colorsOf guess) fun c => min (occurrences guess c) (occurrences soln c)

/-- `get_peg_score` (lines 147-166), faithfully including the final
`PegScore(...)` construction: `white_ct = white_sum - red_ct` is computed in
ℤ exactly as Python computes it, and the constructor's validation runs on the
results.  (`get_peg_score_ok` below proves the error branch unreachable.) -/
def get_peg_score (guess soln : Code) : Except PyErr PegScore :=
  make_peg_score (red_ct guess soln : ℤ) ((white_sum guess soln : ℤ) - (red_ct guess soln : ℤ))

/-- The value `get_peg_score` always succeeds with (see `get_peg_score_ok`):
red count and white count as naturals.  Downstream functions
(`get_min_eliminated`, the drivers' filters) are modelled with this total
scorer. -/
def score (guess soln : Code) : PegScore :=
  ⟨red_ct guess soln, white_sum guess soln - red_ct guess soln⟩

instance {ε α : Type _} [DecidableEq ε] [DecidableEq α] : DecidableEq (Except ε α) := fun a b =>
  match a, b with
  | .ok x, .ok y =>
    if h : x = y then .isTrue (congrArg Except.ok h)
    else .isFalse fun hc => h (Except.ok.inj hc)
  | .ok _, .error _ => .isFalse fun hc => Except.noConfusion hc
  | .error _, .ok _ => .isFalse fun hc => Except.noConfusion hc
  | .error e, .error f =>
    if h : e = f then .isTrue (congrArg Except.error h)
    else .isFalse fun hc => h (Except.error.inj hc)

/-! ## The minimax selector (`get_next_guess`, `get_min_eliminated`) -/

/-- `max_hit_ct` (lines 140-141): the multiplicity of the most common peg
score among `[get_peg_score(code, soln) for soln in solution_candidates]` —
the size of the largest group of candidates sharing a score against `code`. -/
def max_hit_ct (code : Code) (solution_candidates : Finset Code) : ℕ :=
  (solution_candidates.image fun soln => score code soln).sup fun ps =>
    (solution_candidates.filter fun soln => score code soln = ps).card

/-- `get_min_eliminated` (lines 124-144).  When `solution_candidates` is
empty, `ctr.most_common(1)[0]` indexes an empty list and raises
`IndexError`; otherwise the result is
`len(solution_candidates) - max_hit_ct`. -/
def get_min_eliminated (code : Code) (solution_candidates : Finset Code) : Except PyErr ℕ :=
  if solution_candidates = ∅ then .error .indexError
  else .ok (solution_candidates.card - max_hit_ct code solution_candidates)

/-- The total value `get_min_eliminated` returns on a non-empty candidate
set: `|candidates| - (size of the largest score group)`. -/
def min_elim (code : Code) (solution_candidates : Finset Code) : ℕ :=
  solution_candidates.card - max_hit_ct code solution_candidates

/-- One iteration of the `for u in unguessed` loop body of `get_next_guess`
(lines 104-119), given the current `(best_code, max_min_eliminated)` and the
freshly computed `min_eliminated` for `u`:
  * strictly larger → `u` becomes best;
  * tie → keep `best_code` if it is a candidate and `u` is not; take `u` if
    `u` is a candidate and `best_code` is not; otherwise take the
    numerically smaller code (lines 113-119). -/
def gng_step (solution_candidates : Finset Code) (best_code : Code) (max_min_eliminated : ℕ)
    (u : Code) (min_eliminated : ℕ) : Code × ℕ :=
  if min_eliminated > max_min_eliminated then (u, min_eliminated)
  else if min_eliminated = max_min_eliminated then
    if best_code ∈ solution_candidates ∧ u ∉ solution_candidates then
      (best_code, max_min_eliminated)
    else if best_code ∉ solution_candidates ∧ u ∈ solution_candidates then
      (u, max_min_eliminated)
    else if u.to_number < best_code.to_number then (u, max_min_eliminated)
    else (best_code, max_min_eliminated)
  else (best_code, max_min_eliminated)

/-- The `for u in unguessed` loop of `get_next_guess` (lines 104-119),
iterating in the order `rest` left after the initial `pop`; each iteration
calls `get_min_eliminated` (which raises on an empty candidate set). -/
def gng_loop (solution_candidates : Finset Code) :
    Code → ℕ → List Code → Except PyErr (Code × ℕ)
  | best_code, max_min_eliminated, [] => .ok (best_code, max_min_eliminated)
  | best_code, max_min_eliminated, u :: rest =>
    match get_min_eliminated u solution_candidates with
    | .error e => .error e
    | .ok min_eliminated =>
      let s := gng_step solution_candidates best_code max_min_eliminated u min_eliminated
      gng_loop solution_candidates s.1 s.2 rest

/-- `get_next_guess` (lines 91-121).  The Python function's `unguessed`
argument is a mutable set whose iteration order is not under the caller's
control: `unguessed.pop()` removes and returns an arbitrary element (modelled
as the head of the order list) and the loop then visits the remaining
elements.  The result carries, besides the returned
`(best_code, max_min_eliminated)` pair, the list of codes still in the
mutated `unguessed` set after the call. -/
def get_next_guess (solution_candidates : Finset Code) (unguessed : List Code) :
    Except PyErr ((Code × ℕ) × List Code) :=
  match unguessed with
  | [] => .error (.exception "Ran out of unguessed codes")
  | best_code :: rest =>
    match get_min_eliminated best_code solution_candidates with
    | .error e => .error e
    | .ok max_min_eliminated =>
      match gng_loop solution_candidates best_code max_min_eliminated rest with
      | .error e => .error e
      | .ok r => .ok (r, rest)

/-- The error taxonomy name the specification (§7) gives to the raise at
line 99: the selector invoked with no unguessed codes remaining. -/
def EmptyDomain : PyErr := .exception "Ran out of unguessed codes"

/-! ## Driver round steps -/

/-- The candidate-filtering comprehension shared by the three drivers
(lines 190, 257, 289): keep the candidates whose score against
`recommended_guess` equals the observed peg score. -/
def filter_candidates (recommended_guess : Code) (peg_score : PegScore)
    (solution_candidates : Finset Code) : Finset Code :=
  solution_candidates.filter fun s => score recommended_guess s = peg_score

/-- The per-round session state of the two interactive drivers
(`run_game_human_human` lines 243-246, `run_game_cpu_human` lines 274-277):
the candidate set, the unguessed set (iteration order explicit), and the
current recommendation. -/
structure RoundState : Type where
  solution_candidates : Finset Code
  unguessed : List Code
  recommended_guess : Code
deriving DecidableEq

/-- One iteration of the `run_game_human_human` loop body (lines 249-260):
the caller supplies the code actually played (`guess`, possibly overriding
the recommendation) and the observed peg score; `unguessed.remove(guess)`
raises `KeyError` when the guess is not in the set; candidates are filtered
— against the score the *recommended* guess would produce (line 257) — and
`get_next_guess` computes the next recommendation. -/
def human_human_round (st : RoundState) (guess : Code) (peg_score : PegScore) :
    Except PyErr RoundState :=
  if guess ∈ st.unguessed then
    let unguessed' := st.unguessed.erase guess
    let solution_candidates' :=
      filter_candidates st.recommended_guess peg_score st.solution_candidates
    match get_next_guess solution_candidates' unguessed' with
    | .error e => .error e
    | .ok (r, unguessedPost) => .ok ⟨solution_candidates', unguessedPost, r.1⟩
  else .error .keyError

/-- One iteration of the `run_game_cpu_human` loop body (lines 282-292): as
`human_human_round`, except the observed peg score is computed from the
played guess against the hidden solution (line 286). -/
def cpu_human_round (soln : Code) (st : RoundState) (guess : Code) :
    Except PyErr RoundState :=
  if guess ∈ st.unguessed then
    let unguessed' := st.unguessed.erase guess
    let peg_score := score guess soln
    let solution_candidates' :=
      filter_candidates st.recommended_guess peg_score st.solution_candidates
    match get_next_guess solution_candidates' unguessed' with
    | .error e => .error e
    | .ok (r, unguessedPost) => .ok ⟨solution_candidates', unguessedPost, r.1⟩
  else .error .keyError

/-- Lines 178-179 (and 243-244, 274-275): `solution_candidates =
Code.get_full_code_set()` followed by `unguessed = solution_candidates`
binds **both names to one shared set object**.  The first round's
`unguessed.remove(recommended_guess)` (line 184 / 252 / 283) therefore
mutates the set seen through both names.  This definition is the pair
(solution_candidates, unguessed) as observed right after that first
removal. -/
def state_after_first_remove (guess : Code) : Finset Code × Finset Code :=
  let shared := get_full_code_set.erase guess
  (shared, shared)

/-- The concrete codes used for concrete evaluations below. -/
def c1122 : Code := ⟨(1, 1, 2, 2), by decide⟩

def c3456 : Code := ⟨(3, 4, 5, 6), by decide⟩

def c3451 : Code := ⟨(3, 4, 5, 1), by decide⟩

def c6666 : Code := ⟨(6, 6, 6, 6), by decide⟩

/-- Proof auxiliary (not part of the source): the number of positions where
guess and solution agree *and* both show color `v`.  Summed over the palette
it recovers `red_ct`; pointwise it is dominated by both occurrence counts. -/
def match_ct (guess soln : Code) (v : ℕ) : ℕ :=
  (if guess.peg1 = v ∧ soln.peg1 = v then 1 else 0) +
    (if guess.peg2 = v ∧ soln.peg2 = v then 1 else 0) +
    (if guess.peg3 = v ∧ soln.peg3 = v then 1 else 0) +
    (if guess.peg4 = v ∧ soln.peg4 = v then 1 else 0)

/-- The tie-break order of `get_next_guess` (lines 104-119), as a strict
preference: `u` is preferred over `v` iff it eliminates strictly more
candidates in the worst case, or eliminates equally many and wins the
tie-break (membership in the candidate set first, then the lower numeric
encoding). -/
def preferred_over (solution_candidates : Finset Code) (u v : Code) : Prop :=
  min_elim u solution_candidates > min_elim v solution_candidates ∨
    (min_elim u solution_candidates = min_elim v solution_candidates ∧
      ((u ∈ solution_candidates ∧ v ∉ solution_candidates) ∨
        ((u ∈ solution_candidates ↔ v ∈ solution_candidates) ∧ u.to_number < v.to_number)))


/-! ## Scorer arithmetic -/

theorem peg_bounds (c : Code) :
    (1 ≤ c.peg1 ∧ c.peg1 ≤ 6) ∧ (1 ≤ c.peg2 ∧ c.peg2 ≤ 6) ∧
      (1 ≤ c.peg3 ∧ c.peg3 ≤ 6) ∧ (1 ≤ c.peg4 ∧ c.peg4 ≤ 6) := by
  obtain ⟨⟨a, b, c', d⟩, hv⟩ := c
  obtain ⟨h1, h2, h3, h4⟩ := hv
  simp only [CODE_PEG_COLORS, Finset.mem_insert, Finset.mem_singleton] at h1 h2 h3 h4
  simp only [Code.peg1, Code.peg2, Code.peg3, Code.peg4]
  omega

theorem paletteSum (f : ℕ → ℕ) :
    Finset.sum CODE_PEG_COLORS f = f 1 + f 2 + f 3 + f 4 + f 5 + f 6 := by
  unfold CODE_PEG_COLORS
  rw [Finset.sum_insert (by decide), Finset.sum_insert (by decide),
    Finset.sum_insert (by decide), Finset.sum_insert (by decide),
    Finset.sum_insert (by decide), Finset.sum_singleton]
  ring

theorem Code.ext' (g s : Code) (h1 : g.peg1 = s.peg1) (h2 : g.peg2 = s.peg2)
    (h3 : g.peg3 = s.peg3) (h4 : g.peg4 = s.peg4) : g = s := by
  obtain ⟨⟨a, b, c, d⟩, hv⟩ := g
  obtain ⟨⟨a', b', c', d'⟩, hv'⟩ := s
  simp only [Code.peg1, Code.peg2, Code.peg3, Code.peg4] at h1 h2 h3 h4
  subst h1; subst h2; subst h3; subst h4
  rfl

theorem to_number_inj (g s : Code) (h : g.to_number = s.to_number) : g = s := by
  have hg := peg_bounds g
  have hs := peg_bounds s
  unfold Code.to_number at h
  apply Code.ext' <;> omega

theorem ind_and_le_left (a b v : ℕ) :
    (if a = v ∧ b = v then 1 else 0) ≤ (if a = v then 1 else 0) := by
  split_ifs with h1 h2
  · exact le_refl 1
  · exact absurd h1.1 h2
  · exact Nat.zero_le 1
  · exact le_refl 0

theorem ind_and_le_right (a b v : ℕ) :
    (if a = v ∧ b = v then 1 else 0) ≤ (if b = v then 1 else 0) := by
  split_ifs with h1 h2
  · exact le_refl 1
  · exact absurd h1.2 h2
  · exact Nat.zero_le 1
  · exact le_refl 0

theorem match_ct_le_occ_guess (g s : Code) (v : ℕ) :
    match_ct g s v ≤ occurrences g v := by
  unfold match_ct occurrences
  exact add_le_add (add_le_add (add_le_add (ind_and_le_left _ _ _) (ind_and_le_left _ _ _))
    (ind_and_le_left _ _ _)) (ind_and_le_left _ _ _)

theorem match_ct_le_occ_soln (g s : Code) (v : ℕ) :
    match_ct g s v ≤ occurrences s v := by
  unfold match_ct occurrences
  exact add_le_add (add_le_add (add_le_add (ind_and_le_right _ _ _) (ind_and_le_right _ _ _))
    (ind_and_le_right _ _ _)) (ind_and_le_right _ _ _)

theorem sum_ind_eq_one (p : ℕ) (hl : 1 ≤ p) (hr : p ≤ 6) :
    (if p = 1 then 1 else 0) + (if p = 2 then 1 else 0) + (if p = 3 then 1 else 0) +
      (if p = 4 then 1 else 0) + (if p = 5 then 1 else 0) + (if p = 6 then 1 else 0) = 1 := by
  interval_cases p <;> decide

theorem sum_ind_match (p q : ℕ) (hl : 1 ≤ p) (hr : p ≤ 6) :
    (if p = 1 ∧ q = 1 then 1 else 0) + (if p = 2 ∧ q = 2 then 1 else 0) +
      (if p = 3 ∧ q = 3 then 1 else 0) + (if p = 4 ∧ q = 4 then 1 else 0) +
      (if p = 5 ∧ q = 5 then 1 else 0) + (if p = 6 ∧ q = 6 then 1 else 0) =
      (if p = q then 1 else 0) := by
  interval_cases p <;> simp [eq_comm]

theorem red_eq_sum_match (g s : Code) :
    Finset.sum CODE_PEG_COLORS (match_ct g s) = red_ct g s := by
  obtain ⟨hb1, hb2, hb3, hb4⟩ := peg_bounds g
  have m1 := sum_ind_match g.peg1 s.peg1 hb1.1 hb1.2
  have m2 := sum_ind_match g.peg2 s.peg2 hb2.1 hb2.2
  have m3 := sum_ind_match g.peg3 s.peg3 hb3.1 hb3.2
  have m4 := sum_ind_match g.peg4 s.peg4 hb4.1 hb4.2
  rw [paletteSum]
  unfold match_ct red_ct
  linarith [m1, m2, m3, m4]

theorem occ_sum_four (g : Code) : Finset.sum CODE_PEG_COLORS (occurrences g) = 4 := by
  obtain ⟨hb1, hb2, hb3, hb4⟩ := peg_bounds g
  have e1 := sum_ind_eq_one g.peg1 hb1.1 hb1.2
  have e2 := sum_ind_eq_one g.peg2 hb2.1 hb2.2
  have e3 := sum_ind_eq_one g.peg3 hb3.1 hb3.2
  have e4 := sum_ind_eq_one g.peg4 hb4.1 hb4.2
  rw [paletteSum]
  unfold occurrences
  linarith [e1, e2, e3, e4]

theorem colorsOf_subset_palette (g : Code) : colorsOf g ⊆ CODE_PEG_COLORS := by
  obtain ⟨hb1, hb2, hb3, hb4⟩ := peg_bounds g
  intro v hv
  simp only [colorsOf, Finset.mem_insert, Finset.mem_singleton] at hv
  simp only [CODE_PEG_COLORS, Finset.mem_insert, Finset.mem_singleton]
  omega

theorem occ_eq_zero (g : Code) (v : ℕ) (h : v ∉ colorsOf g) : occurrences g v = 0 := by
  simp only [colorsOf, Finset.mem_insert, Finset.mem_singleton, not_or] at h
  obtain ⟨n1, n2, n3, n4⟩ := h
  unfold occurrences
  split_ifs <;> omega

theorem white_sum_eq_palette (g s : Code) :
    white_sum g s =
      Finset.sum CODE_PEG_COLORS fun v => min (occurrences g v) (occurrences s v) := by
  unfold white_sum
  apply Finset.sum_subset (colorsOf_subset_palette g)
  intro v _ hv
  rw [occ_eq_zero g v hv]
  exact Nat.zero_min _

theorem red_le_white_sum (g s : Code) : red_ct g s ≤ white_sum g s := by
  rw [white_sum_eq_palette, ← red_eq_sum_match]
  exact Finset.sum_le_sum fun v _ =>
    le_min (match_ct_le_occ_guess g s v) (match_ct_le_occ_soln g s v)

theorem white_sum_le_four (g s : Code) : white_sum g s ≤ 4 := by
  rw [white_sum_eq_palette]
  calc Finset.sum CODE_PEG_COLORS (fun v => min (occurrences g v) (occurrences s v)) ≤
      Finset.sum CODE_PEG_COLORS (occurrences g) :=
        Finset.sum_le_sum fun v _ => min_le_left _ _
    _ = 4 := occ_sum_four g

theorem get_peg_score_ok (g s : Code) : get_peg_score g s = .ok (score g s) := by
  have h1 := red_le_white_sum g s
  have h2 := white_sum_le_four g s
  unfold get_peg_score make_peg_score score
  rw [if_neg (by omega)]
  simp only [Except.ok.injEq, PegScore.mk.injEq]
  constructor <;> omega

theorem red_ct_symm (g s : Code) : red_ct g s = red_ct s g := by
  unfold red_ct
  split_ifs <;> omega

theorem white_sum_symm (g s : Code) : white_sum g s = white_sum s g := by
  have hg : white_sum g s =
      Finset.sum (colorsOf g ∪ colorsOf s) fun v =>
        min (occurrences g v) (occurrences s v) := by
    unfold white_sum
    apply Finset.sum_subset Finset.subset_union_left
    intro v _ hv
    rw [occ_eq_zero g v hv]
    exact Nat.zero_min _
  have hs : white_sum s g =
      Finset.sum (colorsOf s ∪ colorsOf g) fun v =>
        min (occurrences s v) (occurrences g v) := by
    unfold white_sum
    apply Finset.sum_subset Finset.subset_union_left
    intro v _ hv
    rw [occ_eq_zero s v hv]
    exact Nat.zero_min _
  rw [hg, hs, Finset.union_comm]
  exact Finset.sum_congr rfl fun v _ => Nat.min_comm _ _

theorem score_symm (g s : Code) : score g s = score s g := by
  unfold score
  rw [red_ct_symm, white_sum_symm]

theorem white_sum_self (g : Code) : white_sum g g = 4 := by
  unfold white_sum
  simp only [min_self]
  rw [Finset.sum_subset (colorsOf_subset_palette g) fun v _ hv => occ_eq_zero g v hv]
  exact occ_sum_four g

theorem red_ct_self (g : Code) : red_ct g g = 4 := by
  unfold red_ct
  simp

theorem score_self (g : Code) : score g g = ⟨4, 0⟩ := by
  unfold score
  rw [red_ct_self, white_sum_self]

theorem red_ct_eq_four (g s : Code) (h : red_ct g s = 4) : g = s := by
  unfold red_ct at h
  apply Code.ext' <;> by_contra hc <;> simp only [if_neg hc] at h <;> split_ifs at h <;> omega

theorem score_eq_forty_iff (g s : Code) : score g s = ⟨4, 0⟩ ↔ g = s := by
  constructor
  · intro h
    apply red_ct_eq_four g s
    have := congrArg PegScore.num_red h
    simpa [score] using this
  · rintro rfl
    exact score_self g

/-! ## Selector correctness -/

theorem preferred_over_irrefl (cands : Finset Code) (x : Code)
    (h : preferred_over cands x x) : False := by
  unfold preferred_over at h
  rcases h with h | ⟨_, ⟨hx, hx'⟩ | ⟨_, hlt⟩⟩
  · omega
  · exact hx' hx
  · omega

theorem preferred_over_asymm (cands : Finset Code) (x y : Code)
    (h1 : preferred_over cands x y) (h2 : preferred_over cands y x) : False := by
  unfold preferred_over at h1 h2
  rcases h1 with h | ⟨he, ht⟩ <;> rcases h2 with h' | ⟨he', ht'⟩
  · omega
  · omega
  · omega
  · rcases ht with ⟨hx, hy⟩ | ⟨hiff, hlt⟩ <;> rcases ht' with ⟨hy', hx'⟩ | ⟨hiff', hlt'⟩
    · exact hy hy'
    · exact hy (hiff'.mpr hx)
    · exact hx' (hiff.mpr hy')
    · omega

theorem preferred_over_trans (cands : Finset Code) (x y z : Code)
    (hxy : preferred_over cands x y) (hyz : preferred_over cands y z) :
    preferred_over cands x z := by
  unfold preferred_over at hxy hyz ⊢
  rcases hxy with h | ⟨he, ht⟩ <;> rcases hyz with h' | ⟨he', ht'⟩
  · left; omega
  · left; omega
  · left; omega
  · refine Or.inr ⟨by omega, ?_⟩
    rcases ht with ⟨hx, hy⟩ | ⟨hiff, hlt⟩ <;> rcases ht' with ⟨hy', hz⟩ | ⟨hiff', hlt'⟩
    · exact absurd hy' hy
    · exact Or.inl ⟨hx, fun hz => hy (hiff'.mpr hz)⟩
    · exact Or.inl ⟨hiff.mpr hy', hz⟩
    · exact Or.inr ⟨hiff.trans hiff', hlt.trans hlt'⟩

theorem gng_step_spec (cands : Finset Code) (b u : Code) (s : Code × ℕ)
    (hs : gng_step cands b (min_elim b cands) u (min_elim u cands) = s) :
    s.2 = min_elim s.1 cands ∧ (s.1 = b ∨ s.1 = u) ∧
      (b = s.1 ∨ preferred_over cands s.1 b) ∧
      (u = s.1 ∨ preferred_over cands s.1 u) := by
  unfold gng_step at hs
  unfold preferred_over
  split_ifs at hs with hgt heq hm1 hm2 hlt <;> cases hs <;> dsimp only
  -- strictly better: u wins
  · exact ⟨rfl, Or.inr rfl, Or.inr (Or.inl hgt), Or.inl rfl⟩
  -- tie, best is a candidate and u is not: keep best
  · exact ⟨rfl, Or.inl rfl, Or.inl rfl, Or.inr (Or.inr ⟨heq.symm, Or.inl hm1⟩)⟩
  -- tie, u is a candidate and best is not: u wins
  · exact ⟨heq.symm, Or.inr rfl, Or.inr (Or.inr ⟨heq, Or.inl ⟨hm2.2, hm2.1⟩⟩), Or.inl rfl⟩
  -- tie, same membership, u numerically smaller: u wins
  · have hiff : u ∈ cands ↔ b ∈ cands := by tauto
    exact ⟨heq.symm, Or.inr rfl, Or.inr (Or.inr ⟨heq, Or.inr ⟨hiff, hlt⟩⟩), Or.inl rfl⟩
  -- tie, same membership, u not numerically smaller: keep best
  · refine ⟨rfl, Or.inl rfl, Or.inl rfl, ?_⟩
    by_cases hub : u = b
    · exact Or.inl hub
    · have hnum : ¬u.to_number = b.to_number := fun hn => hub (to_number_inj u b hn)
      have hiff : b ∈ cands ↔ u ∈ cands := by tauto
      exact Or.inr (Or.inr ⟨heq.symm, Or.inr ⟨hiff, by omega⟩⟩)
  -- strictly worse: keep best
  · exact ⟨rfl, Or.inl rfl, Or.inl rfl, Or.inr (Or.inl (by omega))⟩

theorem get_min_eliminated_ok (cands : Finset Code) (hc : ¬cands = ∅) (u : Code) :
    get_min_eliminated u cands = .ok (min_elim u cands) := by
  unfold get_min_eliminated min_elim
  rw [if_neg hc]

theorem gng_loop_spec (cands : Finset Code) (hc : ¬cands = ∅) (l : List Code) :
    ∀ b : Code, ∃ r : Code,
      gng_loop cands b (min_elim b cands) l = .ok (r, min_elim r cands) ∧
        (r = b ∨ r ∈ l) ∧ ∀ v, (v = b ∨ v ∈ l) → v = r ∨ preferred_over cands r v := by
  induction l with
  | nil =>
    intro b
    refine ⟨b, rfl, Or.inl rfl, fun v hv => ?_⟩
    rcases hv with h | h
    · exact Or.inl h
    · exact absurd h (List.not_mem_nil v)
  | cons u rest ih =>
    intro b
    obtain ⟨s, hs⟩ : ∃ s, gng_step cands b (min_elim b cands) u (min_elim u cands) = s :=
      ⟨_, rfl⟩
    obtain ⟨hs2, hs1, hpb, hpu⟩ := gng_step_spec cands b u s hs
    obtain ⟨r, hr, hrmem, hrall⟩ := ih s.1
    have hsr : s.1 = r ∨ preferred_over cands r s.1 := hrall s.1 (Or.inl rfl)
    refine ⟨r, ?_, ?_, ?_⟩
    · show gng_loop cands b (min_elim b cands) (u :: rest) = _
      simp only [gng_loop, get_min_eliminated_ok cands hc u, hs]
      rw [← hs2] at hr
      exact hr
    · rcases hrmem with h | h
      · rcases hs1 with h' | h'
        · exact Or.inl (h.trans h')
        · exact Or.inr (by rw [h, h']; exact List.mem_cons_self u rest)
      · exact Or.inr (List.mem_cons_of_mem u h)
    · intro v hv
      rcases hv with rfl | hv
      · rcases hpb with hb | hb
        · rcases hsr with h | h
          · exact Or.inl (hb.trans h)
          · exact Or.inr (hb.symm ▸ h)
        · rcases hsr with h | h
          · exact Or.inr (h ▸ hb)
          · exact Or.inr (preferred_over_trans cands r s.1 v h hb)
      · rcases List.mem_cons.mp hv with rfl | hv
        · rcases hpu with hu' | hu'
          · rcases hsr with h | h
            · exact Or.inl (hu'.trans h)
            · exact Or.inr (hu'.symm ▸ h)
          · rcases hsr with h | h
            · exact Or.inr (h ▸ hu')
            · exact Or.inr (preferred_over_trans cands r s.1 v h hu')
        · exact hrall v (Or.inr hv)

theorem get_next_guess_spec (cands : Finset Code) (unguessed : List Code)
    (hc : ¬cands = ∅) (hu : unguessed ≠ []) :
    ∃ r : Code,
      get_next_guess cands unguessed = .ok ((r, min_elim r cands), unguessed.tail) ∧
        r ∈ unguessed ∧ ∀ v ∈ unguessed, v = r ∨ preferred_over cands r v := by
  match unguessed, hu with
  | u :: rest, _ =>
    obtain ⟨r, hr, hrmem, hrall⟩ := gng_loop_spec cands hc rest u
    refine ⟨r, ?_, ?_, ?_⟩
    · simp only [get_next_guess, get_min_eliminated_ok cands hc u, hr, List.tail_cons]
    · rcases hrmem with h | h
      · exact h ▸ List.mem_cons_self u rest
      · exact List.mem_cons_of_mem u h
    · intro v hv
      rcases List.mem_cons.mp hv with rfl | hv
      · exact hrall v (Or.inl rfl)
      · exact hrall v (Or.inr hv)

theorem selector_unique (cands : Finset Code) (r1 r2 : Code) (l1 l2 : List Code)
    (hmem : ∀ v, v ∈ l1 ↔ v ∈ l2)
    (h1 : r1 ∈ l1) (h1all : ∀ v ∈ l1, v = r1 ∨ preferred_over cands r1 v)
    (h2 : r2 ∈ l2) (h2all : ∀ v ∈ l2, v = r2 ∨ preferred_over cands r2 v) : r1 = r2 := by
  rcases h2all r1 ((hmem r1).mp h1) with h | hp21
  · exact h
  · rcases h1all r2 ((hmem r2).mpr h2) with h | hp12
    · exact h.symm
    · exact absurd hp12 fun hp => preferred_over_asymm cands r1 r2 hp hp21

theorem mem_full_code_set (c : Code) : c ∈ get_full_code_set := by
  unfold get_full_code_set
  rw [Finset.mem_image]
  have hmem : c.val ∈ pegTuples := by
    obtain ⟨h1, h2, h3, h4⟩ := c.property
    unfold pegTuples
    simp only [Finset.mem_product]
    exact ⟨h1, h2, h3, h4⟩
  exact ⟨⟨c.val, hmem⟩, Finset.mem_attach _ _, Subtype.ext rfl⟩

theorem get_next_guess_ok_inv (cands : Finset Code) (ug : List Code)
    (r : (Code × ℕ) × List Code) (h : get_next_guess cands ug = .ok r) :
    r.2 = ug.tail ∧ ug ≠ [] ∧ ¬cands = ∅ := by
  cases ug with
  | nil => exact absurd h (by simp [get_next_guess])
  | cons u rest =>
    have hc : ¬cands = ∅ := by
      intro hc
      subst hc
      have : get_min_eliminated u (∅ : Finset Code) = .error .indexError := by
        unfold get_min_eliminated
        rw [if_pos rfl]
      unfold get_next_guess at h
      dsimp only at h
      rw [this] at h
      exact Except.noConfusion h
    refine ⟨?_, by simp, hc⟩
    unfold get_next_guess at h
    dsimp only at h
    rw [get_min_eliminated_ok cands hc u] at h
    dsimp only at h
    cases hl : gng_loop cands u (min_elim u cands) rest with
    | error e =>
      rw [hl] at h
      exact Except.noConfusion h
    | ok p =>
      rw [hl] at h
      dsimp only at h
      have := Except.ok.inj h
      rw [← this]
      rfl

theorem get_next_guess_empty_cands (ug : List Code) (h : ug ≠ []) :
    get_next_guess ∅ ug = .error .indexError := by
  cases ug with
  | nil => exact absurd rfl h
  | cons u rest =>
    unfold get_next_guess
    dsimp only
    have : get_min_eliminated u (∅ : Finset Code) = .error .indexError := by
      unfold get_min_eliminated
      rw [if_pos rfl]
    rw [this]

/-! ## The claims -/

/-- C1 — For every non-empty candidate set and non-empty unguessed set (in
any iteration order), `get_next_guess` succeeds and returns a code drawn
from the unguessed set together with its worst-case elimination count
`min_elim` (= |candidates| − size of largest same-score group); the returned
code maximizes that count over the whole unguessed set, and is strictly
preferred (worst-case count first, then membership in the candidate set,
then lower numeric encoding) over every other unguessed code. -/
theorem C1_get_next_guess_minimax (solution_candidates : Finset Code)
    (unguessed : List Code) (hc : solution_candidates ≠ ∅) (hu : unguessed ≠ []) :
    ∃ (best : Code) (post : List Code),
      get_next_guess solution_candidates unguessed =
          .ok ((best, min_elim best solution_candidates), post) ∧
        best ∈ unguessed ∧
        (∀ v ∈ unguessed,
          min_elim v solution_candidates ≤ min_elim best solution_candidates) ∧
        ∀ v ∈ unguessed, v ≠ best → preferred_over solution_candidates best v := by
  obtain ⟨r, hr, hrm, hrall⟩ := get_next_guess_spec solution_candidates unguessed hc hu
  refine ⟨r, unguessed.tail, hr, hrm, ?_, ?_⟩
  · intro v hv
    rcases hrall v hv with rfl | hp
    · exact le_refl _
    · unfold preferred_over at hp
      rcases hp with h | ⟨h, _⟩ <;> omega
  · intro v hv hne
    rcases hrall v hv with h | hp
    · exact absurd h hne
    · exact hp

/-- Witness for C1 at a concrete input exercising the membership tie-break:
candidates {1122}, unguessed iterated as [3456, 1122]. -/
theorem C1_witness :
    ∃ (best : Code) (post : List Code),
      get_next_guess {c1122} [c3456, c1122] = .ok ((best, min_elim best {c1122}), post) ∧
        best ∈ [c3456, c1122] ∧
        (∀ v ∈ [c3456, c1122], min_elim v {c1122} ≤ min_elim best {c1122}) ∧
        ∀ v ∈ [c3456, c1122], v ≠ best → preferred_over {c1122} best v :=
  C1_get_next_guess_minimax {c1122} [c3456, c1122] (by decide) (by decide)

/-- C2 — the claim fails on the code and the code is the slip: in the
interactive drivers (`run_game_human_human` line 257, `run_game_cpu_human`
line 289) the observed peg score comes from the code actually played, but
the candidate filter compares it against the score the *recommended* guess
would produce.  Concretely: suggestion 1122, player plays 3456, solution
3451, observed score `score(3456, 3451) = (3 red, 0 white)`; the code's
filter (`filter_candidates`) then removes the true solution 3451 from the
full first-round candidate set, whereas filtering by the played code — as
the claim states — keeps it. -/
theorem C2_filter_uses_recommended_not_played :
    score c3456 c3451 = ⟨3, 0⟩ ∧
      c3451 ∉ filter_candidates c1122 ⟨3, 0⟩ get_full_code_set ∧
      c3451 ∈ get_full_code_set.filter fun s => score c3456 s = ⟨3, 0⟩ := by
  refine ⟨by decide, ?_, ?_⟩
  · intro h
    have h2 := (Finset.mem_filter.mp h).2
    exact absurd h2 (by decide)
  · exact Finset.mem_filter.mpr ⟨mem_full_code_set c3451, by decide⟩

/-- C3 (counterexample) — `get_next_guess` does *not* leave its unguessed
set unchanged: on candidates {1122} and unguessed [1122, 3456] it succeeds,
yet the unguessed set afterwards is [3456] — the popped code 1122 is gone
before any code has been played. -/
theorem C3_counterexample :
    get_next_guess {c1122} [c1122, c3456] = .ok ((c1122, 0), [c3456]) ∧
      [c3456] ≠ [c1122, c3456] :=
  ⟨by decide, by decide⟩

/-- C3 (amended) — `get_next_guess` leaves the candidate set untouched but
removes the initially popped element from the unguessed set (on success the
post-call unguessed set is exactly the input minus the popped head); hence a
successful round of the interactive driver loop shrinks the unguessed set by
two codes (the popped one and the played one), not by exactly one. -/
theorem C3_amended :
    (∀ (cands : Finset Code) (u : Code) (rest : List Code), cands ≠ ∅ →
        ∃ b w, get_next_guess cands (u :: rest) = .ok ((b, w), rest)) ∧
      ∀ (st : RoundState) (guess : Code) (ps : PegScore) (st' : RoundState),
        human_human_round st guess ps = .ok st' →
          st'.unguessed.length + 2 = st.unguessed.length := by
  constructor
  · intro cands u rest hc
    obtain ⟨r, hr, _, _⟩ := get_next_guess_spec cands (u :: rest) hc (by simp)
    exact ⟨r, min_elim r cands, hr⟩
  · intro st guess ps st' h
    unfold human_human_round at h
    split_ifs at h with hg
    · dsimp only at h
      cases hgng : get_next_guess
          (filter_candidates st.recommended_guess ps st.solution_candidates)
          (st.unguessed.erase guess) with
      | error e =>
        rw [hgng] at h
        exact Except.noConfusion h
      | ok rp =>
        obtain ⟨rpair, rpost⟩ := rp
        obtain ⟨htail, hne, -⟩ := get_next_guess_ok_inv _ _ _ hgng
        rw [hgng] at h
        dsimp only at h
        have hst' := Except.ok.inj h
        have hlen : (st.unguessed.erase guess).length + 1 = st.unguessed.length :=
          List.length_erase_add_one hg
        have hlen2 : rpost.length + 1 = (st.unguessed.erase guess).length := by
          have : rpost = (st.unguessed.erase guess).tail := htail
          rw [this]
          cases herase : st.unguessed.erase guess with
          | nil => exact absurd herase hne
          | cons a l => simp
        rw [← hst']
        dsimp only
        omega

/-- Witness for C3 (amended) at concrete inputs: candidates {1122} with
unguessed [1122, 3456] for the selector part, and a full driver round
(state ({1122}, [1122, 3456], 1122), played guess 1122, observed (4,0))
whose unguessed set drops from two codes to zero. -/
theorem C3_amended_witness :
    (∃ b w, get_next_guess {c1122} (c1122 :: [c3456]) = .ok ((b, w), [c3456])) ∧
      (⟨{c1122}, ([] : List Code), c3456⟩ : RoundState).unguessed.length + 2 =
        (⟨{c1122}, [c1122, c3456], c1122⟩ : RoundState).unguessed.length :=
  ⟨C3_amended.1 {c1122} c1122 [c3456] (by decide),
    C3_amended.2 ⟨{c1122}, [c1122, c3456], c1122⟩ c1122 ⟨4, 0⟩
      ⟨{c1122}, ([] : List Code), c3456⟩ (by decide)⟩

/-- C4 (counterexample) — at session start the two names alias one shared
set, so the first round's removal of the played code from the unguessed set
does *not* leave the candidate set unchanged: after
`unguessed.remove(Code([1,1,2,2]))` the candidate set no longer equals the
full code set. -/
theorem C4_counterexample :
    (state_after_first_remove c1122).1 ≠ get_full_code_set := by
  intro h
  have hm : c1122 ∈ (state_after_first_remove c1122).1 := by
    rw [h]
    exact mem_full_code_set c1122
  have : c1122 ∈ get_full_code_set.erase c1122 := hm
  exact Finset.not_mem_erase c1122 get_full_code_set this

/-- C4 (amended) — at session start both names bind one shared set, so the
first round's removal of the played code from the unguessed set removes it
from the candidate set as well (`C4_counterexample`); the candidate set
becomes an independently owned container only at the filtering step, which
rebinds it to a fresh set.  From then on the original claim's conclusion
does hold: in both interactive drivers, a successful round's output
candidate set is exactly the filter of its input candidate set — the
round's `unguessed.remove(guess)` mutation leaves it unchanged. -/
theorem C4_amended :
    (∀ (st : RoundState) (guess : Code) (ps : PegScore) (st' : RoundState),
        human_human_round st guess ps = .ok st' →
          st'.solution_candidates =
            filter_candidates st.recommended_guess ps st.solution_candidates) ∧
      ∀ (soln : Code) (st : RoundState) (guess : Code) (st' : RoundState),
        cpu_human_round soln st guess = .ok st' →
          st'.solution_candidates =
            filter_candidates st.recommended_guess (score guess soln)
              st.solution_candidates := by
  constructor
  · intro st guess ps st' h
    unfold human_human_round at h
    split_ifs at h with hg
    dsimp only at h
    cases hgng : get_next_guess
        (filter_candidates st.recommended_guess ps st.solution_candidates)
        (st.unguessed.erase guess) with
    | error e =>
      rw [hgng] at h
      exact Except.noConfusion h
    | ok rp =>
      obtain ⟨rpair, rpost⟩ := rp
      rw [hgng] at h
      dsimp only at h
      have hst' := Except.ok.inj h
      rw [← hst']
  · intro soln st guess st' h
    unfold cpu_human_round at h
    split_ifs at h with hg
    dsimp only at h
    cases hgng : get_next_guess
        (filter_candidates st.recommended_guess (score guess soln) st.solution_candidates)
        (st.unguessed.erase guess) with
    | error e =>
      rw [hgng] at h
      exact Except.noConfusion h
    | ok rp =>
      obtain ⟨rpair, rpost⟩ := rp
      rw [hgng] at h
      dsimp only at h
      have hst' := Except.ok.inj h
      rw [← hst']

/-- Witness for C4 (amended): one concrete successful round of each
interactive driver, in both of which the output candidate set equals the
filter of the input candidate set. -/
theorem C4_amended_witness :
    ((⟨{c1122}, ([] : List Code), c3456⟩ : RoundState).solution_candidates =
        filter_candidates c1122 ⟨4, 0⟩ {c1122}) ∧
      (⟨{c1122}, ([] : List Code), c3456⟩ : RoundState).solution_candidates =
        filter_candidates c1122 (score c1122 c1122) {c1122} :=
  ⟨C4_amended.1 ⟨{c1122}, [c1122, c3456], c1122⟩ c1122 ⟨4, 0⟩
      ⟨{c1122}, ([] : List Code), c3456⟩ (by decide),
    C4_amended.2 c1122 ⟨{c1122}, [c1122, c3456], c1122⟩ c1122
      ⟨{c1122}, ([] : List Code), c3456⟩ (by decide)⟩

/-- C5 — the scorer is symmetric in guess and reference: both the total
`score` value (red and white counts alike) and the full `get_peg_score`
result coincide under swapping the two codes. -/
theorem C5_score_symmetric (a b : Code) :
    score a b = score b a ∧ get_peg_score a b = get_peg_score b a := by
  have h := score_symm a b
  exact ⟨h, by rw [get_peg_score_ok, get_peg_score_ok, h]⟩

/-- C6 — the scorer is total: for every pair of valid codes,
`get_peg_score` returns a `PegScore` (the `PegScore.__init__` error branch
is unreachable from it), and the resulting counts satisfy
red + white ≤ 4 (non-negativity being intrinsic to ℕ). -/
theorem C6_scorer_total (guess soln : Code) :
    get_peg_score guess soln = .ok (score guess soln) ∧
      (score guess soln).num_red + (score guess soln).num_white ≤ 4 := by
  refine ⟨get_peg_score_ok guess soln, ?_⟩
  have h1 := red_le_white_sum guess soln
  have h2 := white_sum_le_four guess soln
  unfold score
  dsimp only
  omega

/-- C7 — the selector is deterministic: two calls on the same candidate set
and the same unguessed *set value* (any two iteration orders, i.e. any two
permutations of the same list, hence any choice of initially popped
element) that both succeed return the identical (code, worst-case count)
pair. -/
theorem C7_selector_deterministic (cands : Finset Code) (ug1 ug2 : List Code)
    (hperm : ug1.Perm ug2) (r1 r2 : (Code × ℕ) × List Code)
    (h1 : get_next_guess cands ug1 = .ok r1) (h2 : get_next_guess cands ug2 = .ok r2) :
    r1.1 = r2.1 := by
  obtain ⟨-, hne1, hc⟩ := get_next_guess_ok_inv cands ug1 r1 h1
  obtain ⟨-, hne2, -⟩ := get_next_guess_ok_inv cands ug2 r2 h2
  obtain ⟨rA, hA, hAm, hAall⟩ := get_next_guess_spec cands ug1 hc hne1
  obtain ⟨rB, hB, hBm, hBall⟩ := get_next_guess_spec cands ug2 hc hne2
  have e1 : r1 = ((rA, min_elim rA cands), ug1.tail) := Except.ok.inj (h1.symm.trans hA)
  have e2 : r2 = ((rB, min_elim rB cands), ug2.tail) := Except.ok.inj (h2.symm.trans hB)
  have hAB : rA = rB :=
    selector_unique cands rA rB ug1 ug2 (fun v => hperm.mem_iff) hAm hAall hBm hBall
  rw [e1, e2, hAB]

/-- Witness for C7: the same candidate set {1122} with the two iteration
orders [1122, 3456] and [3456, 1122] of one unguessed set; both calls
return (1122, 0). -/
theorem C7_witness :
    (((c1122, 0), [c3456]) : (Code × ℕ) × List Code).1 =
      (((c1122, 0), [c1122]) : (Code × ℕ) × List Code).1 :=
  C7_selector_deterministic {c1122} [c1122, c3456] [c3456, c1122] (by decide)
    ((c1122, 0), [c3456]) ((c1122, 0), [c1122]) (by decide) (by decide)

/-- C8 — `get_next_guess` invoked with an empty unguessed set fails, for
every candidate set, with the error the specification's taxonomy names
EmptyDomain (`Exception('Ran out of unguessed codes')`, line 99). -/
theorem C8_empty_unguessed_raises (solution_candidates : Finset Code) :
    get_next_guess solution_candidates [] = .error EmptyDomain := rfl

/-- C9 (counterexample) — a filtering step that empties the candidate set
does not raise a distinct InconsistentFeedback error: with candidates
{1122}, recommendation 1122 and observed score (0,0) the filter comes out
empty, and the driver round then fails with the generic `IndexError`
produced by `ctr.most_common(1)[0]` on an empty score list inside
`get_min_eliminated`. -/
theorem C9_counterexample :
    filter_candidates c1122 ⟨0, 0⟩ {c1122} = ∅ ∧
      human_human_round ⟨{c1122}, [c1122, c3456], c1122⟩ c1122 ⟨0, 0⟩ =
        .error PyErr.indexError :=
  ⟨by decide, by decide⟩

/-- C9 (amended) — whenever a round's filtering empties the candidate set
(and unguessed codes remain for the selector to pop), the session fails at
that point with the generic `IndexError` arising inside
`get_min_eliminated`, rather than continuing silently — but it is not the
distinct InconsistentFeedback error the specification postulates. -/
theorem C9_amended (st : RoundState) (guess : Code) (obs : PegScore)
    (hg : guess ∈ st.unguessed)
    (hempty : filter_candidates st.recommended_guess obs st.solution_candidates = ∅)
    (hug : st.unguessed.erase guess ≠ []) :
    human_human_round st guess obs = .error PyErr.indexError := by
  unfold human_human_round
  rw [if_pos hg]
  dsimp only
  rw [hempty, get_next_guess_empty_cands _ hug]

/-- Witness for C9 (amended) at the concrete state of `C9_counterexample`. -/
theorem C9_amended_witness :
    human_human_round ⟨{c1122}, [c1122, c3456], c1122⟩ c1122 ⟨0, 0⟩ =
      .error PyErr.indexError :=
  C9_amended ⟨{c1122}, [c1122, c3456], c1122⟩ c1122 ⟨0, 0⟩ (by decide) (by decide)
    (by decide)

/-- C10 — a peg score of (4 red, 0 white) characterizes equality: for every
pair of valid codes, `get_peg_score a b = PegScore(4, 0)` iff `a == b` in
the sense of `Code.__eq__` (equal `to_number`), and that equality coincides
with identity of the codes — so the cpu-vs-cpu driver's win test
(`recommended_guess == soln`, line 187) and the session contract's win test
(observed score equals (4,0)) always agree. -/
theorem C10_forty_iff_equal (a b : Code) :
    (get_peg_score a b = .ok ⟨4, 0⟩ ↔ code_eq a b) ∧ (code_eq a b ↔ a = b) := by
  have hcode : code_eq a b ↔ a = b := by
    unfold code_eq
    exact ⟨fun h => to_number_inj a b h, fun h => by rw [h]⟩
  refine ⟨?_, hcode⟩
  rw [get_peg_score_ok]
  simp only [Except.ok.injEq]
  rw [score_eq_forty_iff]
  exact hcode.symm

/-- Witness for C5 at concrete codes 1122 and 3456. -/
theorem C5_witness :
    score c1122 c3456 = score c3456 c1122 ∧
      get_peg_score c1122 c3456 = get_peg_score c3456 c1122 :=
  C5_score_symmetric c1122 c3456

/-- Witness for C6 at concrete codes 1122 and 3451. -/
theorem C6_witness :
    get_peg_score c1122 c3451 = .ok (score c1122 c3451) ∧
      (score c1122 c3451).num_red + (score c1122 c3451).num_white ≤ 4 :=
  C6_scorer_total c1122 c3451

/-- Witness for C8 at a concrete candidate set. -/
theorem C8_witness : get_next_guess {c1122} [] = .error EmptyDomain :=
  C8_empty_unguessed_raises {c1122}

/-- Witness for C10 at concrete codes 3451 and 3456. -/
theorem C10_witness :
    (get_peg_score c3451 c3456 = .ok ⟨4, 0⟩ ↔ code_eq c3451 c3456) ∧
      (code_eq c3451 c3456 ↔ c3451 = c3456) :=
  C10_forty_iff_equal c3451 c3456
